import Mathlib

/-!
Verification development for the stratified group-splitting core of the
`remarque` repository (`src/server/sampling.py`).

The Python source is shallowly embedded: pandas/numpy floats are idealized
as rationals (`ℚ`), user tables as lists of rows, Python `set`s of row
indices as duplicate-free lists whose unspecified pop order is abstracted
by an `Oracle.pick` function, and `np.random.choice` by an `Oracle.coin`
stream.  External statistical library calls (`scipy.stats.ks_2samp`,
`scipy.stats.chisquare`, `scipy.stats.entropy`, `pandas.Series.std`) are
taken as function parameters where only the surrounding control flow is
at issue; the value actually computed by `scipy.stats.entropy` (a
Kullback-Leibler sum) is embedded separately over `ℝ`.
-/

namespace Sampling

/-- Python `max(xs, key=f)` for a nonempty list: returns the first element
attaining the maximal key (later elements replace the current best only on
a strictly greater key). -/
def pyMaxBy {α : Type} (f : α → ℕ) : List α → Option α
  | [] => none
  | x :: xs => some (xs.foldl (fun b y => if f b < f y then y else b) x)

/-- Python `max(iterable)` over rationals; `none` models the `ValueError`
raised on an empty iterable. -/
def pyMaxList : List ℚ → Option ℚ
  | [] => none
  | x :: xs => some (xs.foldl max x)

/-- Python list indexing `l[i]` including negative indices counted from the
end (out-of-range indices, which would raise `IndexError`, default to 0;
the embedding only uses in-range accesses). -/
def pyGet (l : List ℚ) (i : ℤ) : ℚ :=
  if i < 0 then l.getD (l.length - (-i).toNat) 0 else l.getD i.toNat 0

/-- Round a rational to the nearest integer, halves to even — the rounding
used by Python `format` on floats (idealized to exact arithmetic). -/
def roundHalfEvenZ (x : ℚ) : ℤ :=
  let f := ⌊x⌋
  let r := x - f
  if r < 1/2 then f else if 1/2 < r then f + 1 else if 2 ∣ f then f else f + 1

/-- Python `'{:.0f}'.format(x)`. -/
def fmt0 (x : ℚ) : String := toString (roundHalfEvenZ x)

/-- Python `'{:.1f}'.format(x)` for the nonnegative values formatted by the
warning strings. -/
def fmt1 (x : ℚ) : String :=
  let y := |x|
  let n := roundHalfEvenZ (y * 10)
  let s := toString (n / 10) ++ "." ++ toString (n % 10)
  if x < 0 then "-" ++ s else s

/-- Python `'{:.3f}'.format(x)` for nonnegative values. -/
def fmt3 (x : ℚ) : String :=
  let n := roundHalfEvenZ (x * 1000)
  let d := n % 1000
  let ds := toString d
  let pad := if d < 10 then "00" else if d < 100 then "0" else ""
  toString (n / 1000) ++ "." ++ pad ++ ds

/-! ### Binning helper (`binsify`, sampling.py lines 258-287)

`np.quantile(values, q)` with the default linear interpolation: with the
values sorted ascending and `h = q * (n - 1)`, the quantile is
`v[⌊h⌋] + (h - ⌊h⌋) * (v[⌊h⌋ + 1] - v[⌊h⌋])`. -/

/-- `np.quantile(vals, q)` (linear interpolation, the numpy default).
Undefined-for-empty in numpy (raises); here the empty case returns 0 and is
excluded by hypotheses wherever it matters. -/
def npQuantile (vals : List ℚ) (q : ℚ) : ℚ :=
  let s := List.insertionSort (· ≤ ·) vals
  let n := s.length
  let h := q * ((n : ℚ) - 1)
  let i := (⌊h⌋).toNat
  let lo := s.getD i 0
  let hi := s.getD (i + 1) lo
  lo + (h - (⌊h⌋ : ℚ)) * (hi - lo)

/-- `binsify(df, col, percentile)` from sampling.py: starts the edge list at
`0.0`, then appends `sorted(list(set(np.quantile(df[col].values, percentile))))`.
An empty `ps` models a falsy `percentile` argument (`None` or `[]`), which
selects `[0.5]` for columns of fewer than 10 rows and `[0.2, 0.4, 0.6, 0.8]`
otherwise. -/
def binsify (col : List ℚ) (ps : List ℚ) : List ℚ :=
  let ps2 := if ps.isEmpty then
      (if col.length < 10 then [1/2] else [1/5, 2/5, 3/5, 4/5]) else ps
  let qs := ((ps2.map (npQuantile col)).toFinset).sort (· ≤ ·)
  0 :: qs

/-- A linear interpolation between two elements of a list of positive
rationals is positive, hence `np.quantile` of an all-positive nonempty
column at a cut point in `[0, 1]` is positive. -/
theorem npQuantile_pos (vals : List ℚ) (q : ℚ) (hne : vals ≠ [])
    (hpos : ∀ v ∈ vals, 0 < v) (hq0 : 0 ≤ q) (hq1 : q ≤ 1) :
    0 < npQuantile vals q := by
  unfold npQuantile
  set s := List.insertionSort (· ≤ ·) vals with hs
  have hmem : ∀ v ∈ s, 0 < v := by
    intro v hv
    exact hpos v ((List.perm_insertionSort (· ≤ ·) vals).mem_iff.mp hv)
  have hlen : 1 ≤ s.length := by
    have h2 := (List.perm_insertionSort (· ≤ ·) vals).length_eq
    rw [← hs] at h2
    have hvl : vals.length ≠ 0 := fun hz => hne (List.length_eq_zero.mp hz)
    omega
  set n := s.length with hn
  set t := q * ((n : ℚ) - 1) with ht
  have hnn : (0 : ℚ) ≤ (n : ℚ) - 1 := by
    have : (1 : ℚ) ≤ (n : ℚ) := by exact_mod_cast hlen
    linarith
  have ht0 : 0 ≤ t := mul_nonneg hq0 hnn
  have htub : t ≤ (n : ℚ) - 1 := by
    calc t ≤ 1 * ((n : ℚ) - 1) := mul_le_mul_of_nonneg_right hq1 hnn
      _ = (n : ℚ) - 1 := one_mul _
  have hfl0 : 0 ≤ ⌊t⌋ := Int.le_floor.mpr (by exact_mod_cast ht0)
  have hfli : ⌊t⌋ ≤ (n : ℤ) - 1 := by
    have hcast : t ≤ (((n : ℤ) - 1 : ℤ) : ℚ) := by push_cast; linarith
    calc ⌊t⌋ ≤ ⌊(((n : ℤ) - 1 : ℤ) : ℚ)⌋ := Int.floor_le_floor hcast
      _ = (n : ℤ) - 1 := Int.floor_intCast _
  have hidx : (⌊t⌋).toNat < n := by omega
  have hfr0 : 0 ≤ t - (⌊t⌋ : ℚ) := by
    have := Int.floor_le t
    linarith
  have hfr1 : t - (⌊t⌋ : ℚ) < 1 := by
    have := Int.lt_floor_add_one t
    linarith
  have hlo : 0 < s.getD (⌊t⌋).toNat 0 := by
    rw [List.getD_eq_getElem s 0 hidx]
    exact hmem _ (List.getElem_mem hidx)
  set lo := s.getD (⌊t⌋).toNat 0 with hlodef
  have hhi : 0 < s.getD ((⌊t⌋).toNat + 1) lo := by
    by_cases hc : (⌊t⌋).toNat + 1 < n
    · rw [List.getD_eq_getElem s lo hc]
      exact hmem _ (List.getElem_mem hc)
    · rw [List.getD_eq_default s lo (by omega)]
      exact hlo
  set hi := s.getD ((⌊t⌋).toNat + 1) lo with hhidef
  have hsplit : lo + (t - (⌊t⌋ : ℚ)) * (hi - lo)
      = (1 - (t - (⌊t⌋ : ℚ))) * lo + (t - (⌊t⌋ : ℚ)) * hi := by ring
  rw [hsplit]
  have h1 : 0 < (1 - (t - (⌊t⌋ : ℚ))) * lo := mul_pos (by linarith) hlo
  have h2 : 0 ≤ (t - (⌊t⌋ : ℚ)) * hi := mul_nonneg hfr0 (le_of_lt hhi)
  linarith

/-- Every edge after the leading `0.0` that `binsify` produces with the
default cut points is a quantile of the column at a cut in `[0, 1]`. -/
theorem binsify_tail_mem (col : List ℚ) (x : ℚ)
    (hx : x ∈ (binsify col []).tail) :
    ∃ p, (0 ≤ p ∧ p ≤ 1) ∧ x = npQuantile col p := by
  unfold binsify at hx
  simp only [List.isEmpty_nil, if_true, List.tail_cons, Finset.mem_sort,
    List.mem_toFinset, List.mem_map] at hx
  obtain ⟨p, hp, hpx⟩ := hx
  have hpb : 0 ≤ p ∧ p ≤ 1 := by
    by_cases hlen : col.length < 10
    · simp only [hlen, if_true, List.mem_singleton] at hp
      rw [hp]
      norm_num
    · simp only [hlen, if_false, List.mem_cons, List.mem_singleton,
        List.not_mem_nil, or_false] at hp
      rcases hp with h1 | h1 | h1 | h1 <;> rw [h1] <;> norm_num
  exact ⟨p, hpb, hpx.symm⟩

/-- C4, counterexample: for the constant zero column `[0, 0, 0]` (3 rows,
so the default cut points collapse to the median), `binsify` returns
`[0.0, 0.0]`, which is not strictly increasing. -/
theorem C4_binsify_cex :
    binsify [0, 0, 0] [] = [0, 0]
    ∧ ¬ List.Chain' (· < ·) (binsify [0, 0, 0] []) := by
  have h : binsify [0, 0, 0] [] = [0, 0] := by
    norm_num [binsify, npQuantile, List.insertionSort, List.orderedInsert]
  refine ⟨h, ?_⟩
  rw [h]
  norm_num [List.chain'_cons]

/-- C4, amended: for a non-empty numeric column all of whose values are
positive, `binsify` with the default percentile cut points returns a list
that begins with `0.0`, has at least two edges, and is strictly
increasing; for columns of fewer than 10 rows the default cut points
collapse to the single median cut, so the result is `[0.0, median]`.
(For a column containing `0` — or negative values — the edges after the
leading `0.0` are still sorted and de-duplicated, but the list need not be
strictly increasing, as the counterexample shows.) -/
theorem C4_binsify_amended (col : List ℚ) (hne : col ≠ [])
    (hpos : ∀ v ∈ col, 0 < v) :
    (binsify col []).head? = some 0
    ∧ 2 ≤ (binsify col []).length
    ∧ List.Chain' (· < ·) (binsify col [])
    ∧ (col.length < 10 → binsify col [] = [0, npQuantile col (1/2)]) := by
  have hqpos : ∀ x ∈ (binsify col []).tail, 0 < x := by
    intro x hx
    obtain ⟨p, ⟨hp0, hp1⟩, hpx⟩ := binsify_tail_mem col x hx
    rw [hpx]
    exact npQuantile_pos col p hne hpos hp0 hp1
  have hform : binsify col []
      = 0 :: ((((if col.length < 10 then [1/2] else
          [1/5, 2/5, 3/5, 4/5]) : List ℚ).map
            (npQuantile col)).toFinset).sort (· ≤ ·) := by
    simp [binsify]
  have htail : (binsify col []).tail
      = ((((if col.length < 10 then [1/2] else
          [1/5, 2/5, 3/5, 4/5]) : List ℚ).map
            (npQuantile col)).toFinset).sort (· ≤ ·) := by
    rw [hform, List.tail_cons]
  have htne : (binsify col []).tail ≠ [] := by
    rw [htail]
    intro hnil
    have hmem : npQuantile col (if col.length < 10 then 1/2 else 1/5)
        ∈ ((((if col.length < 10 then [1/2] else
          [1/5, 2/5, 3/5, 4/5]) : List ℚ).map
            (npQuantile col)).toFinset).sort (· ≤ ·) := by
      rw [Finset.mem_sort, List.mem_toFinset, List.mem_map]
      by_cases hlen : col.length < 10 <;> simp [hlen]
    rw [hnil] at hmem
    exact (List.not_mem_nil _) hmem
  refine ⟨by rw [hform]; rfl, ?_, ?_, ?_⟩
  · rw [hform]
    rcases hl : (binsify col []).tail with _ | ⟨y, ys⟩
    · exact absurd hl htne
    · rw [hform] at hl
      simp only [List.tail_cons] at hl
      rw [hl]
      simp
  · rw [hform, List.chain'_cons']
    constructor
    · intro y hy
      apply hqpos
      rw [htail]
      exact List.mem_of_mem_head? hy
    · rw [List.chain'_iff_pairwise]
      exact Finset.sort_sorted_lt _
  · intro hlen
    rw [hform]
    simp [hlen, Finset.sort_singleton]

/-- Witness for C4 at the concrete positive column `[1, 2, 3]`, whose
median is 2, so `binsify` returns `[0, 2]`. -/
theorem C4_binsify_amended_witness :
    binsify [1, 2, 3] [] = [0, 2]
    ∧ ((binsify [1, 2, 3] []).head? = some 0
       ∧ 2 ≤ (binsify [1, 2, 3] []).length
       ∧ List.Chain' (· < ·) (binsify [1, 2, 3] [])
       ∧ (([1, 2, 3] : List ℚ).length < 10 →
           binsify [1, 2, 3] [] = [0, npQuantile [1, 2, 3] (1/2)])) :=
  ⟨by norm_num [binsify, npQuantile, List.insertionSort, List.orderedInsert],
   C4_binsify_amended [1, 2, 3] (by simp) (by norm_num)⟩

/-! ### Offset assignment (`offset_features`, sampling.py lines 290-309)

A DataFrame is modelled by its columns: `numeric` holds the numeric
feature columns, `cats` the (already ordinal-encoded) categorical ones,
each as a list of per-row values. -/

/-- `series.max()` for a column (nonempty in every real call; numpy would
yield `NaN` on an empty column, here the empty case defaults to 0). -/
def colMaxQ (l : List ℚ) : ℚ := l.foldl max (l.headD 0)

/-- `df[numeric_features].max().max()`: the maximum over the per-column
maxima. -/
def dfMaxQ (cols : List (List ℚ)) : ℚ := colMaxQ (cols.map colMaxQ)

/-- One iteration of the `for f in cat_features` loop of `offset_features`:
`delta = len(df[f].unique()); df[f] = df[f] + offset; offset += delta`. -/
def offsetStep (acc : List (List ℚ) × ℚ) (c : List ℚ) : List (List ℚ) × ℚ :=
  (acc.1 ++ [c.map (fun v => v + acc.2)], acc.2 + (c.dedup.length : ℚ))

/-- `offset_features(df, cat_features, numeric_features)`: the categorical
columns after the shifting loop, whose running offset starts at
`max(df[numeric_features].max().max(), 0)`.  Numeric columns are returned
unchanged by the Python code and are omitted here. -/
def offsetFeatures (numeric cats : List (List ℚ)) : List (List ℚ) :=
  (cats.foldl offsetStep ([], max (dfMaxQ numeric) 0)).1

/-- The sequence of running-offset values before each categorical column
is processed (the entry after the last column is the final offset). -/
def offsetSeq (numeric cats : List (List ℚ)) : List ℚ :=
  (cats.map (fun c => (c.dedup.length : ℚ))).scanl (· + ·)
    (max (dfMaxQ numeric) 0)

/-- Structural form of the shifting loop: each column is shifted by the
offset accumulated over the preceding columns. -/
def shiftAll : List (List ℚ) → ℚ → List (List ℚ)
  | [], _ => []
  | c :: cs, off => (c.map (fun v => v + off)) :: shiftAll cs (off + (c.dedup.length : ℚ))

theorem offsetFold (cats : List (List ℚ)) :
    ∀ (acc : List (List ℚ)) (off : ℚ),
    (cats.foldl offsetStep (acc, off)).1 = acc ++ shiftAll cats off := by
  induction cats with
  | nil => intro acc off; simp [shiftAll]
  | cons c cs ih =>
    intro acc off
    simp only [List.foldl_cons, offsetStep, shiftAll, ih]
    simp

theorem offsetFeatures_eq_shiftAll (numeric cats : List (List ℚ)) :
    offsetFeatures numeric cats = shiftAll cats (max (dfMaxQ numeric) 0) := by
  unfold offsetFeatures
  rw [offsetFold]
  simp

/-- Every value of the `i`-th shifted categorical column lies in the
half-open interval `[off + Σ preceding cardinalities, that + own
cardinality)`, provided the raw encoded values are the codes
`0 … cardinality - 1`. -/
theorem shiftAll_bounds (cats : List (List ℚ)) :
    ∀ (off : ℚ) (i : ℕ) (ci : List ℚ) (x : ℚ),
    (∀ c ∈ cats, ∀ v ∈ c, v ∈ List.map (fun (k : ℕ) => (k : ℚ)) (List.range c.dedup.length)) →
    (shiftAll cats off).get? i = some ci → x ∈ ci →
    ((cats.take i).map (fun c => (c.dedup.length : ℚ))).sum + off ≤ x
    ∧ x < ((cats.take (i+1)).map (fun c => (c.dedup.length : ℚ))).sum + off := by
  induction cats with
  | nil => intro off i ci x _ hget _; simp [shiftAll] at hget
  | cons c cs ih =>
    intro off i ci x hcode hget hx
    cases i with
    | zero =>
      simp only [shiftAll, List.get?_cons_zero, Option.some.injEq] at hget
      subst hget
      obtain ⟨v, hv, rfl⟩ := List.mem_map.mp hx
      have hvr := hcode c (by simp) v hv
      have hvb : 0 ≤ v ∧ v < (c.dedup.length : ℚ) := by
        obtain ⟨k, hk, hkv⟩ := List.mem_map.mp hvr
        have hklt := List.mem_range.mp hk
        constructor
        · rw [← hkv]
          positivity
        · rw [← hkv]
          exact_mod_cast hklt
      constructor
      · simp only [List.take_zero, List.map_nil, List.sum_nil, zero_add]
        linarith [hvb.1]
      · simp only [List.take_succ_cons, List.take_zero, List.map_cons,
          List.map_nil, List.sum_cons, List.sum_nil, add_zero]
        linarith [hvb.2]
    | succ j =>
      simp only [shiftAll, List.get?_cons_succ] at hget
      have hcode2 : ∀ c2 ∈ cs, ∀ v ∈ c2,
          v ∈ List.map (fun (k : ℕ) => (k : ℚ)) (List.range c2.dedup.length) := by
        intro c2 hc2 v hv
        exact hcode c2 (List.mem_cons_of_mem _ hc2) v hv
      have := ih (off + (c.dedup.length : ℚ)) j ci x hcode2 hget hx
      simp only [List.take_succ_cons, List.map_cons, List.sum_cons]
      constructor <;> linarith [this.1, this.2]

/-- C3, counterexample: with one numeric column `[1]` and two categorical
columns both encoded `[0]`, the running offset starts at the numeric
maximum 1 (not just above it), so the first shifted categorical column is
`[1]` — its value set overlaps the numeric column's value set `{1}`, and
two numeric columns could likewise overlap each other; the claimed
pairwise disjointness over all feature columns fails. -/
theorem C3_offset_overlap_cex :
    offsetFeatures [[1]] [[0], [0]] = [[1], [2]]
    ∧ ((offsetFeatures [[1]] [[0], [0]]).getD 0 []).toFinset
        ∩ ([1] : List ℚ).toFinset ≠ ∅
    ∧ (offsetSeq [[1]] [[0], [0]]).head? = some 1 := by
  have h : offsetFeatures [[1]] [[0], [0]] = [[1], [2]] := by
    norm_num [offsetFeatures, offsetStep, dfMaxQ, colMaxQ, List.dedup]
  refine ⟨h, ?_, ?_⟩
  · rw [h]
    have h2 : ((([[1], [2]] : List (List ℚ)).getD 0 []).toFinset
        ∩ ([1] : List ℚ).toFinset) = {(1 : ℚ)} := by
      simp
    rw [h2]
    exact Finset.singleton_ne_empty _
  · norm_num [offsetSeq, dfMaxQ, colMaxQ, List.scanl]

theorem scanl_add_head (l : List ℚ) (b : ℚ) :
    (List.scanl (· + ·) b l).head? = some b := by
  cases l <;> simp [List.scanl]

theorem scanl_add_get_succ (l : List ℚ) :
    ∀ (b : ℚ) (i : ℕ), i < l.length →
    (List.scanl (· + ·) b l).get? (i + 1)
      = ((List.scanl (· + ·) b l).get? i).map (fun o => o + l.getD i 0) := by
  induction l with
  | nil => intro b i h; simp at h
  | cons x xs ih =>
    intro b i h
    cases i with
    | zero =>
      simp only [List.scanl_cons, List.get?_cons_succ, List.get?_cons_zero,
        Option.map_some', List.getD_cons_zero]
      cases xs <;> simp [List.scanl]
    | succ n =>
      simp only [List.scanl_cons, List.get?_cons_succ, List.getD_cons_succ]
      exact ih (b + x) n (by simpa using h)

theorem sum_take_mono_nonneg (l : List ℚ) (hl : ∀ x ∈ l, 0 ≤ x)
    (m n : ℕ) (hmn : m ≤ n) : (l.take m).sum ≤ (l.take n).sum := by
  have hsplit : l.take n = l.take m ++ ((l.drop m).take (n - m)) := by
    rw [← List.take_add]
    congr 1
    omega
  rw [hsplit, List.sum_append]
  have h2 : 0 ≤ ((l.drop m).take (n - m)).sum := by
    apply List.sum_nonneg
    intro x hx
    exact hl x (List.mem_of_mem_drop (List.mem_of_mem_take hx))
  linarith

/-- C3, amended: the running offset of `offset_features` starts at
`max(numeric maximum, 0)` (at the maximum, not just above it) and grows by
each categorical column's cardinality in processing order; the value sets
of two distinct shifted *categorical* columns are disjoint whenever each
categorical column's encoded values are the ordinal codes
`0 … cardinality - 1` (as `make_encoding` produces).  Numeric columns are
left unchanged and may overlap both each other and the lowest value of
the first shifted categorical column. -/
theorem C3_offset_amended (numeric cats : List (List ℚ)) (i j : ℕ)
    (hij : i < j) (hj : j < cats.length) (ti tj : List ℚ)
    (hti : (offsetFeatures numeric cats).get? i = some ti)
    (htj : (offsetFeatures numeric cats).get? j = some tj)
    (hcode : ∀ c ∈ cats, ∀ v ∈ c,
      v ∈ List.map (fun (k : ℕ) => (k : ℚ)) (List.range c.dedup.length)) :
    ti.toFinset ∩ tj.toFinset = ∅
    ∧ (offsetSeq numeric cats).head? = some (max (dfMaxQ numeric) 0)
    ∧ (offsetSeq numeric cats).get? (i + 1)
        = ((offsetSeq numeric cats).get? i).map
            (fun o => o + (((cats.get? i).getD []).dedup.length : ℚ)) := by
  refine ⟨?_, ?_, ?_⟩
  · rw [offsetFeatures_eq_shiftAll] at hti htj
    rw [Finset.eq_empty_iff_forall_not_mem]
    intro x hx
    rw [Finset.mem_inter, List.mem_toFinset, List.mem_toFinset] at hx
    have hbi := shiftAll_bounds cats (max (dfMaxQ numeric) 0) i ti x hcode hti hx.1
    have hbj := shiftAll_bounds cats (max (dfMaxQ numeric) 0) j tj x hcode htj hx.2
    have hmono : ((cats.take (i + 1)).map (fun c => (c.dedup.length : ℚ))).sum
        ≤ ((cats.take j).map (fun c => (c.dedup.length : ℚ))).sum := by
      rw [List.map_take, List.map_take]
      apply sum_take_mono_nonneg
      · intro y hy
        obtain ⟨c, _, rfl⟩ := List.mem_map.mp hy
        positivity
      · omega
    linarith [hbi.2, hbj.1]
  · exact scanl_add_head _ _
  · unfold offsetSeq
    rw [scanl_add_get_succ _ _ i (by simpa using lt_trans hij hj)]
    congr 1
    funext o
    congr 1
    rw [List.getD_eq_getElem?_getD, List.getElem?_map]
    cases hg : cats[i]? with
    | none =>
      have : i < cats.length := lt_trans hij hj
      rw [List.getElem?_eq_none_iff] at hg
      omega
    | some c =>
      simp [List.get?_eq_getElem?, hg]

/-- Witness for C3 at one numeric column `[1]` and two categorical
columns encoded `[0]` and `[0, 1]`: the shifted columns are `[1]` and
`[2, 3]`, with offset sequence `[1, 2, 4]`. -/
theorem C3_offset_amended_witness :
    (([1] : List ℚ).toFinset ∩ ([2, 3] : List ℚ).toFinset = ∅
    ∧ (offsetSeq [[1]] [[0], [0, 1]]).head? = some (max (dfMaxQ [[1]]) 0)
    ∧ (offsetSeq [[1]] [[0], [0, 1]]).get? (0 + 1)
        = ((offsetSeq [[1]] [[0], [0, 1]]).get? 0).map
            (fun o => o + (((([[0], [0, 1]] : List (List ℚ)).get? 0).getD
                []).dedup.length : ℚ))) :=
  C3_offset_amended [[1]] [[0], [0, 1]] 0 1 (by norm_num) (by norm_num)
    [1] [2, 3]
    (by norm_num [offsetFeatures, offsetStep, dfMaxQ, colMaxQ, List.dedup])
    (by norm_num [offsetFeatures, offsetStep, dfMaxQ, colMaxQ, List.dedup])
    (by norm_num)

/-! ### Stratifier (`stratify`, sampling.py lines 119-255)

`data` is the list of per-user label lists, `classes` the label universe.
Python `set`s of row indices become duplicate-free lists; the unspecified
order of `set.pop()` is abstracted by `Oracle.pick`, and
`np.random.choice([0, 1])` by the boolean stream `Oracle.coin` (`true`
picks subset 0, the test group).  Float arithmetic on sizes and targets is
idealized as `ℚ`. -/

/-- Environment abstracting the two nondeterministic ingredients of
`stratify`: which element `set.pop()` yields, and the random coin flips. -/
structure Oracle where
  pick : List ℕ → ℕ
  coin : ℕ → Bool

/-- `set.add`: append an element unless already present (keeps the lists
duplicate-free). -/
def addOnce (i : ℕ) (l : List ℕ) : List ℕ := if i ∈ l then l else l ++ [i]

/-- Pointwise update of a per-label table. -/
def updF {α : Type} (f : String → α) (l : String) (v : α) : String → α :=
  fun x => if x = l then v else f x

/-- Inner loop of the per-label-data organisation
(`for l in d: per_label_data[l].add(i)`); a label outside `classes` is the
`KeyError` the dict lookup raises. -/
def addLabels (classes : List String) (i : ℕ) :
    List String → (String → List ℕ) → Except Unit (String → List ℕ)
  | [], a => .ok a
  | l :: ls, a =>
    if l ∈ classes then addLabels classes i ls (updF a l (addOnce i (a l)))
    else .error ()

/-- `for i, d in enumerate(data): for l in d: per_label_data[l].add(i)`. -/
def organizeGo (classes : List String) :
    ℕ → List (List String) → (String → List ℕ) → Except Unit (String → List ℕ)
  | _, [], a => .ok a
  | i, d :: ds, a =>
    match addLabels classes i d a with
    | .error e => .error e
    | .ok a2 => organizeGo classes (i + 1) ds a2

/-- The per-label-data organisation phase of `stratify` (lines 137-140):
`per_label_data = {c: set() for c in classes}` followed by the enumeration
loop.  Raises (`.error`) exactly when some user carries a label outside
`classes`. -/
def organize (data : List (List String)) (classes : List String) :
    Except Unit (String → List ℕ) :=
  organizeGo classes 0 data (fun _ => [])

/-- Mutable state of the main assignment loop of `stratify`. -/
structure St where
  pld : String → List ℕ
  tgt : String → ℚ × ℚ
  sizes : ℚ × ℚ
  size : ℤ
  out0 : List ℕ
  out1 : List ℕ
  cix : ℕ

/-- One execution of the body of `while per_label_data[label]:`
(lines 206-249): pop a sample, pick its subset by the three-level
tie-break, record it, and update all the bookkeeping. -/
def assignOne (data : List (List String)) (orc : Oracle) (label : String)
    (s : St) : St :=
  let ids := s.pld label
  let cur := orc.pick ids
  let pld1 := updF s.pld label (ids.erase cur)
  let tn := (s.tgt label).1
  let cn := (s.tgt label).2
  let subset : ℕ :=
    if tn ≠ cn then (if cn < tn then 0 else 1)
    else if s.sizes.1 ≠ s.sizes.2 then (if s.sizes.2 < s.sizes.1 then 0 else 1)
    else (if orc.coin s.cix then 0 else 1)
  let cix1 :=
    if tn ≠ cn then s.cix
    else if s.sizes.1 ≠ s.sizes.2 then s.cix else s.cix + 1
  let labs := data.getD cur []
  let tgt1 := labs.foldl
    (fun t l => updF t l
      (if subset = 0 then ((t l).1 - 1, (t l).2) else ((t l).1, (t l).2 - 1)))
    s.tgt
  let pld2 := labs.foldl (fun p l => updF p l ((p l).erase cur)) pld1
  { pld := pld2
    tgt := tgt1
    sizes := if subset = 0 then (s.sizes.1 - 1, s.sizes.2)
      else (s.sizes.1, s.sizes.2 - 1)
    size := s.size - 1
    out0 := if subset = 0 then addOnce cur s.out0 else s.out0
    out1 := if subset = 1 then addOnce cur s.out1 else s.out1
    cix := cix1 }

/-- `while per_label_data[label]: …` — process every remaining sample of
the selected label.  The fuel is instantiated with the current size of the
label's remaining set, which suffices because each iteration removes the
popped sample. -/
def processLabel (data : List (List String)) (orc : Oracle) :
    ℕ → String → St → St
  | 0, _, s => s
  | fuel + 1, label, s =>
    if (s.pld label).isEmpty then s
    else processLabel data orc fuel label (assignOne data orc label s)

/-- Label selection (lines 194-201): from the precomputed frequency order,
keep the labels that still have remaining samples and take - Python `max`
style, first maximum wins - the one with the MOST remaining samples. -/
def selectLabel (sorted : List String) (pld : String → List ℕ) :
    Option String :=
  pyMaxBy (fun l => (pld l).length) (sorted.filter (fun l => !(pld l).isEmpty))

/-- The `while size > 0:` loop (lines 193-249).  On each iteration a label
is selected and all its remaining samples assigned; the loop also stops
when no label has remaining samples (`if not available_labels: break`). -/
def mainLoop (data : List (List String)) (sorted : List String)
    (orc : Oracle) : ℕ → St → St
  | 0, s => s
  | fuel + 1, s =>
    if s.size ≤ 0 then s
    else
      match selectLabel sorted s.pld with
      | none => s
      | some label =>
        mainLoop data sorted orc fuel
          (processLabel data orc (s.pld label).length label s)

/-- `sorted(..., key=lambda x: x[1], reverse=True)` over the initial
per-label counts — a stable descending sort, as Python's `sorted`. -/
def sortLabelsDesc (classes : List String) (pld : String → List ℕ) :
    List String :=
  List.insertionSort (fun a b => (pld b).length ≤ (pld a).length) classes

/-- Ascending sort of the final index lists
(`[sorted(strat) for strat in stratified_data_ids]`). -/
def sortAsc (l : List ℕ) : List ℕ := List.insertionSort (· ≤ ·) l

/-- `stratify(data, classes, ratio)` (sampling.py lines 119-255), returning
the pair (test indices, control indices), or `.error` for the `KeyError`
raised while organising per-label data when a label is missing from
`classes`. -/
def stratifyE (data : List (List String)) (classes : List String) (r : ℚ)
    (orc : Oracle) : Except Unit (List ℕ × List ℕ) :=
  match organize data classes with
  | .error e => .error e
  | .ok pld0 =>
    let n : ℕ := data.length
    let sorted := sortLabelsDesc classes pld0
    let s0 : St :=
      { pld := pld0
        tgt := fun c => (r * ((pld0 c).length : ℚ),
          (1 - r) * ((pld0 c).length : ℚ))
        sizes := (r * (n : ℚ), (1 - r) * (n : ℚ))
        size := (n : ℤ)
        out0 := []
        out1 := []
        cix := 0 }
    let s1 := mainLoop data sorted orc (n + 1) s0
    .ok (sortAsc s1.out0, sortAsc s1.out1)

/-- A fixed oracle for concrete runs: `set.pop` yields the first stored
element, every coin flip chooses the test group. -/
def orc0 : Oracle := ⟨fun l => l.headD 0, fun _ => true⟩

theorem headD_mem (l : List ℕ) (h : l ≠ []) : l.headD 0 ∈ l := by
  cases l with
  | nil => exact absurd rfl h
  | cons x xs => simp

theorem addLabels_error (classes : List String) (i : ℕ) (l : String)
    (hnc : l ∉ classes) :
    ∀ (d : List String) (a : String → List ℕ), l ∈ d →
      addLabels classes i d a = .error () := by
  intro d
  induction d with
  | nil => intro a h; cases h
  | cons x xs ih =>
    intro a hl
    by_cases hx : x ∈ classes
    · have hlxs : l ∈ xs := by
        rcases List.mem_cons.mp hl with rfl | h
        · exact absurd hx hnc
        · exact h
      simp only [addLabels, if_pos hx]
      exact ih _ hlxs
    · simp only [addLabels, if_neg hx]

theorem organizeGo_error (classes : List String) (l : String)
    (hnc : l ∉ classes) :
    ∀ (ds : List (List String)) (k : ℕ) (a : String → List ℕ)
      (d : List String), d ∈ ds → l ∈ d →
      organizeGo classes k ds a = .error () := by
  intro ds
  induction ds with
  | nil => intro k a d h; cases h
  | cons d0 rest ih =>
    intro k a d hd hl
    rcases List.mem_cons.mp hd with rfl | hdr
    · simp only [organizeGo, addLabels_error classes k l hnc d a hl]
    · simp only [organizeGo]
      cases h0 : addLabels classes k d0 a with
      | error e => simp
      | ok a2 => exact ih (k + 1) a2 d hdr hl

/-- C10: `stratify` is total only when every label of every user belongs to
`classes`; a user carrying a label outside `classes` makes the per-label
organisation phase raise a `KeyError` (`per_label_data[l].add(i)` on a
missing dict key, sampling.py line 140), before any assignment is made —
both `organize` and the whole of `stratify` end in the error. -/
theorem C10_stratify_keyerror (data : List (List String))
    (classes : List String) (r : ℚ) (orc : Oracle) (i : ℕ)
    (d : List String) (l : String) (hd : data.get? i = some d)
    (hl : l ∈ d) (hnc : l ∉ classes) :
    organize data classes = Except.error ()
    ∧ stratifyE data classes r orc = Except.error () := by
  have hdm : d ∈ data := List.get?_mem hd
  have horg : organize data classes = .error () :=
    organizeGo_error classes l hnc data 0 _ d hdm hl
  refine ⟨horg, ?_⟩
  unfold stratifyE
  rw [horg]

/-- Witness for C10: the single user `[["x"]]` whose label `"x"` is
missing from the class universe `["y"]`. -/
theorem C10_stratify_keyerror_witness :
    organize [["x"]] ["y"] = Except.error ()
    ∧ stratifyE [["x"]] ["y"] (1/2) orc0 = Except.error () :=
  C10_stratify_keyerror [["x"]] ["y"] (1/2) orc0 0 ["x"] "x" rfl
    (by simp) (by simp)

theorem foldl_pyMax_ge {α : Type} (f : α → ℕ) :
    ∀ (xs : List α) (b : α),
      f b ≤ f (xs.foldl (fun b y => if f b < f y then y else b) b) := by
  intro xs
  induction xs with
  | nil => intro b; simp
  | cons x xs ih =>
    intro b
    simp only [List.foldl_cons]
    by_cases h : f b < f x
    · rw [if_pos h]
      exact le_trans (le_of_lt h) (ih x)
    · rw [if_neg h]
      exact ih b

theorem foldl_pyMax_all {α : Type} (f : α → ℕ) :
    ∀ (xs : List α) (b : α) (y : α), y ∈ xs →
      f y ≤ f (xs.foldl (fun b y => if f b < f y then y else b) b) := by
  intro xs
  induction xs with
  | nil => intro b y h; cases h
  | cons x xs ih =>
    intro b y hy
    simp only [List.foldl_cons]
    rcases List.mem_cons.mp hy with rfl | h
    · by_cases hbx : f b < f y
      · rw [if_pos hbx]
        exact foldl_pyMax_ge f xs y
      · rw [if_neg hbx]
        exact le_trans (le_of_not_lt hbx) (foldl_pyMax_ge f xs b)
    · exact ih _ y h

/-- Python `max(xs, key=f)` returns an element whose key is maximal. -/
theorem pyMaxBy_spec {α : Type} (f : α → ℕ) (xs : List α) (m : α)
    (h : pyMaxBy f xs = some m) : ∀ y ∈ xs, f y ≤ f m := by
  cases xs with
  | nil => cases h
  | cons x rest =>
    simp only [pyMaxBy, Option.some.injEq] at h
    subst h
    intro y hy
    rcases List.mem_cons.mp hy with rfl | hr
    · exact foldl_pyMax_ge f rest y
    · exact foldl_pyMax_all f rest x y hr

/-- The label the loop selects has the MOST remaining unassigned users
among the still-available labels. -/
theorem selectLabel_most (sorted : List String) (pld : String → List ℕ)
    (label : String) (hsel : selectLabel sorted pld = some label) :
    ∀ l ∈ sorted, pld l ≠ [] → (pld l).length ≤ (pld label).length := by
  intro l hls hlne
  apply pyMaxBy_spec _ _ _ hsel
  rw [List.mem_filter]
  refine ⟨hls, ?_⟩
  simp [List.isEmpty_iff, hlne]

theorem foldl_erase_length_le (cur : ℕ) (label : String) :
    ∀ (labs : List String) (p : String → List ℕ),
      ((labs.foldl (fun p l => updF p l ((p l).erase cur)) p) label).length
        ≤ (p label).length := by
  intro labs
  induction labs with
  | nil => intro p; exact le_refl _
  | cons x xs ih =>
    intro p
    refine le_trans (ih _) ?_
    unfold updF
    by_cases hx : label = x
    · subst hx
      simp only [if_pos rfl]
      exact List.length_erase_le _ _
    · simp [hx]

/-- The per-label data after one assignment: the popped sample is erased
from the selected label's set, then erased from the sets of every label
the sample carries. -/
theorem assignOne_pld (data : List (List String)) (orc : Oracle)
    (label : String) (s : St) :
    (assignOne data orc label s).pld
      = (data.getD (orc.pick (s.pld label)) []).foldl
          (fun p l => updF p l ((p l).erase (orc.pick (s.pld label))))
          (updF s.pld label
            ((s.pld label).erase (orc.pick (s.pld label)))) := rfl

/-- Each pass of the inner loop body strictly shrinks the selected label's
remaining set (the popped sample is erased, further bookkeeping erasures
can only shrink it more). -/
theorem assignOne_pld_lt (data : List (List String)) (orc : Oracle)
    (label : String) (s : St)
    (hpick : ∀ l : List ℕ, l ≠ [] → orc.pick l ∈ l)
    (hne : s.pld label ≠ []) :
    ((assignOne data orc label s).pld label).length + 1
      ≤ (s.pld label).length := by
  have hcur : orc.pick (s.pld label) ∈ s.pld label := hpick _ hne
  have herase : ((s.pld label).erase (orc.pick (s.pld label))).length + 1
      = (s.pld label).length := List.length_erase_add_one hcur
  have h1 : ((updF s.pld label
      ((s.pld label).erase (orc.pick (s.pld label)))) label)
      = (s.pld label).erase (orc.pick (s.pld label)) := by
    simp [updF]
  have h2 := foldl_erase_length_le (orc.pick (s.pld label)) label
    (data.getD (orc.pick (s.pld label)) [])
    (updF s.pld label ((s.pld label).erase (orc.pick (s.pld label))))
  rw [h1] at h2
  rw [assignOne_pld]
  exact le_trans (Nat.add_le_add_right h2 1) (le_of_eq herase)

/-- The inner `while per_label_data[label]:` loop, given fuel equal to the
label's current number of remaining users, assigns them all: the label's
remaining set is empty afterwards. -/
theorem processLabel_empties (data : List (List String)) (orc : Oracle)
    (hpick : ∀ l : List ℕ, l ≠ [] → orc.pick l ∈ l) (label : String) :
    ∀ (fuel : ℕ) (s : St), (s.pld label).length ≤ fuel →
      (processLabel data orc fuel label s).pld label = [] := by
  intro fuel
  induction fuel with
  | zero =>
    intro s hlen
    have hz : s.pld label = [] := List.length_eq_zero.mp (by omega)
    simpa [processLabel] using hz
  | succ n ih =>
    intro s hlen
    rw [processLabel]
    by_cases hemp : (s.pld label).isEmpty
    · rw [if_pos hemp]
      exact List.isEmpty_iff.mp hemp
    · rw [if_neg hemp]
      apply ih
      have hne : s.pld label ≠ [] := by
        simpa [List.isEmpty_iff] using hemp
      have := assignOne_pld_lt data orc label s hpick hne
      omega

/-- The concrete stratification input `[["a"], ["a"], ["b"]]` over classes
`["a", "b"]`, and the per-label data `stratify` organises from it. -/
def stratCexData : List (List String) := [["a"], ["a"], ["b"]]

def stratCexPld : String → List ℕ :=
  fun l => match organize stratCexData ["a", "b"] with
  | .ok f => f l
  | .error _ => []

/-- C2, counterexample: on `[["a"], ["a"], ["b"]]` the label `"a"` has 2
remaining users and `"b"` has 1; the selection step picks `"a"` — the
available label with the MOST remaining unassigned users — although `"b"`,
with strictly fewer remaining users, is available, so the claimed
fewest-first selection is false. -/
theorem C2_label_selection_cex :
    stratCexPld "a" = [0, 1]
    ∧ stratCexPld "b" = [2]
    ∧ selectLabel (sortLabelsDesc ["a", "b"] stratCexPld) stratCexPld
        = some "a"
    ∧ "b" ∈ (sortLabelsDesc ["a", "b"] stratCexPld).filter
        (fun l => !(stratCexPld l).isEmpty)
    ∧ (stratCexPld "b").length < (stratCexPld "a").length := by
  norm_num +decide [stratCexPld, stratCexData, organize, organizeGo,
    addLabels, addOnce, updF, selectLabel, pyMaxBy, sortLabelsDesc,
    List.insertionSort, List.orderedInsert]

/-- C2, amended: at every iteration of the main loop, among the labels
that still have unassigned users, the selected label is one with the MOST
remaining unassigned users (Python `max` over the available labels), and
all of that label's remaining users are assigned before the next label is
selected (its remaining set is empty when the inner loop finishes). -/
theorem C2_label_selection_amended (data : List (List String))
    (orc : Oracle) (hpick : ∀ l : List ℕ, l ≠ [] → orc.pick l ∈ l)
    (sorted : List String) (s : St) (label : String)
    (hsel : selectLabel sorted s.pld = some label) :
    (sorted.all (fun l => (s.pld l).isEmpty
        || decide ((s.pld l).length ≤ (s.pld label).length)) = true)
    ∧ (processLabel data orc (s.pld label).length label s).pld label
        = [] := by
  constructor
  · rw [List.all_eq_true]
    intro l hls
    by_cases hemp : (s.pld l).isEmpty
    · simp [hemp]
    · have hne : s.pld l ≠ [] := by
        simpa [List.isEmpty_iff] using hemp
      simp [hemp, selectLabel_most sorted s.pld label hsel l hls hne]
  · exact processLabel_empties data orc hpick label _ s (le_refl _)

def stratCexSt : St :=
  { pld := stratCexPld
    tgt := fun _ => (0, 0)
    sizes := (0, 0)
    size := 3
    out0 := []
    out1 := []
    cix := 0 }

/-- Witness for C2 on the state `stratify` reaches for
`[["a"], ["a"], ["b"]]`: the selected label `"a"` dominates all available
labels and its two users are both assigned by the inner loop. -/
theorem C2_label_selection_amended_witness :
    ((["a", "b"] : List String).all (fun l => (stratCexSt.pld l).isEmpty
        || decide ((stratCexSt.pld l).length
            ≤ (stratCexSt.pld "a").length)) = true)
    ∧ (processLabel stratCexData orc0 (stratCexSt.pld "a").length "a"
        stratCexSt).pld "a" = [] :=
  C2_label_selection_amended stratCexData orc0 (fun l h => headD_mem l h)
    ["a", "b"] stratCexSt "a"
    (by norm_num +decide [stratCexSt, stratCexPld, stratCexData, organize,
      organizeGo, addLabels, addOnce, updF, selectLabel, pyMaxBy])

/-! ### Split orchestrator (`split_via_stratification`, lines 330-424)

A row of the input table: `idx` is the pandas index label of the row,
`user` the user id, `labels` the stringified encoded feature values the
pipeline builds for the row (the `labels` column, line 390; rows carry
them here because binning/encoding/offsetting are row-local and covered by
the other sections).  Metrics and distribution computation (lines 406-418)
do not alter the returned partitions and are modelled separately. -/

structure PRow where
  idx : ℕ
  user : String
  labels : List String

/-- `df.drop_duplicates(subset=['user'], keep='last')`: keep a row iff no
later row has the same user; row order and index labels are preserved. -/
def dropDupKeepLast : List PRow → List PRow
  | [] => []
  | r :: rest =>
    if rest.any (fun r2 => r2.user = r.user) then dropDupKeepLast rest
    else r :: dropDupKeepLast rest

/-- `encoded.loc[test_ids, ['user']]`: pandas `.loc` looks the ids up as
*index labels*; `none` models the `KeyError` raised when an id is missing
from the index. -/
def locUsers (rows : List PRow) : List ℕ → Option (List String)
  | [] => some []
  | i :: is =>
    match rows.find? (fun r2 => r2.idx = i), locUsers rows is with
    | some r2, some us => some (r2.user :: us)
    | _, _ => none

/-- `split_via_stratification` from deduplication to the two user tables:
deduplicate keeping the last occurrence, default a falsy ratio to 0.5,
stratify the label lists, select the test rows by `.loc` on the index
labels, and take the control rows as the rows whose user is not a test
user. -/
def splitCore (rows : List PRow) (classes : List String) (r : ℚ)
    (orc : Oracle) : Except Unit (List String × List String) :=
  let dd := dropDupKeepLast rows
  let r2 := if r = 0 then 1/2 else r
  match stratifyE (dd.map (fun p => p.labels)) classes r2 orc with
  | .error e => .error e
  | .ok ids =>
    match locUsers dd ids.1 with
    | none => .error ()
    | some usersTest =>
      .ok (usersTest,
        (dd.filter (fun p => !(usersTest.contains p.user))).map
          (fun p => p.user))

theorem locUsers_mem (rows : List PRow) :
    ∀ (ids : List ℕ) (us : List String), locUsers rows ids = some us →
      ∀ u ∈ us, ∃ p ∈ rows, p.user = u := by
  intro ids
  induction ids with
  | nil =>
    intro us h u hu
    simp only [locUsers, Option.some.injEq] at h
    subst h
    cases hu
  | cons i is ih =>
    intro us h u hu
    simp only [locUsers] at h
    cases hf : rows.find? (fun r2 => r2.idx = i) with
    | none => rw [hf] at h; cases h
    | some p =>
      rw [hf] at h
      cases hrec : locUsers rows is with
      | none => rw [hrec] at h; cases h
      | some us2 =>
        rw [hrec] at h
        simp only [Option.some.injEq] at h
        subst h
        rcases List.mem_cons.mp hu with rfl | hu2
        · exact ⟨p, List.mem_of_find?_eq_some hf, rfl⟩
        · exact ih us2 hrec u hu2

/-- C1: whenever `split_via_stratification` returns, the two returned user
sets partition the deduplicated input: their union is exactly the user set
of the deduplicated table and their intersection is empty.  (This holds by
construction: the control table is defined as the complement, within the
deduplicated table, of the selected test users.) -/
theorem C1_partitions (rows : List PRow) (classes : List String) (r : ℚ)
    (orc : Oracle) (t c : List String)
    (h : splitCore rows classes r orc = .ok (t, c)) :
    t.toFinset ∪ c.toFinset
        = ((dropDupKeepLast rows).map (fun p => p.user)).toFinset
    ∧ t.toFinset ∩ c.toFinset = ∅ := by
  unfold splitCore at h
  dsimp only at h
  cases hstrat : stratifyE ((dropDupKeepLast rows).map (fun p => p.labels))
      classes (if r = 0 then 1/2 else r) orc with
  | error e => rw [hstrat] at h; dsimp only at h; cases h
  | ok ids =>
    rw [hstrat] at h
    dsimp only at h
    cases hloc : locUsers (dropDupKeepLast rows) ids.1 with
    | none => rw [hloc] at h; cases h
    | some usersTest =>
      rw [hloc] at h
      simp only [Except.ok.injEq, Prod.mk.injEq] at h
      obtain ⟨rfl, rfl⟩ := h
      constructor
      · ext x
        simp only [Finset.mem_union, List.mem_toFinset, List.mem_map,
          List.mem_filter]
        constructor
        · rintro (hx | hx)
          · obtain ⟨p, hp, hpu⟩ := locUsers_mem _ _ _ hloc x hx
            exact ⟨p, hp, hpu⟩
          · obtain ⟨p, ⟨hp, _⟩, hpu⟩ := hx
            exact ⟨p, hp, hpu⟩
        · rintro ⟨p, hp, rfl⟩
          by_cases hmem : p.user ∈ usersTest
          · exact Or.inl hmem
          · refine Or.inr ⟨p, ⟨hp, ?_⟩, rfl⟩
            simp only [Bool.not_eq_true']
            rw [List.contains_eq_any_beq]
            simp only [List.any_eq_false, beq_iff_eq]
            intro u hu hcontra
            exact hmem (hcontra ▸ hu)
      · rw [Finset.eq_empty_iff_forall_not_mem]
        intro x hx
        rw [Finset.mem_inter, List.mem_toFinset, List.mem_toFinset] at hx
        obtain ⟨p, hpf, hpu⟩ := List.mem_map.mp hx.2
        rw [List.mem_filter] at hpf
        have := hpf.2
        rw [Bool.not_eq_true', List.contains_eq_any_beq] at this
        simp only [List.any_eq_false, beq_iff_eq] at this
        exact this x hx.1 hpu

/-- Witness for C1: two users with distinct single labels at ratio 1/2;
the run assigns user `"A"` (row 0) to test and `"B"` to control. -/
theorem C1_partitions_witness :
    splitCore [⟨0, "A", ["x"]⟩, ⟨1, "B", ["y"]⟩] ["x", "y"] (1/2) orc0
      = .ok (["A"], ["B"])
    ∧ ((["A"] : List String).toFinset ∪ (["B"] : List String).toFinset
        = ((dropDupKeepLast [⟨0, "A", ["x"]⟩, ⟨1, "B", ["y"]⟩]).map
            (fun p => p.user)).toFinset
      ∧ (["A"] : List String).toFinset ∩ (["B"] : List String).toFinset
          = ∅) := by
  have hrun : splitCore [⟨0, "A", ["x"]⟩, ⟨1, "B", ["y"]⟩] ["x", "y"]
      (1/2) orc0 = .ok (["A"], ["B"]) := by
    norm_num +decide [splitCore, dropDupKeepLast, locUsers, stratifyE,
      organize, organizeGo, addLabels, addOnce, updF, sortLabelsDesc,
      mainLoop, selectLabel, pyMaxBy, processLabel, assignOne, sortAsc,
      orc0, List.insertionSort, List.orderedInsert]
  exact ⟨hrun,
    C1_partitions [⟨0, "A", ["x"]⟩, ⟨1, "B", ["y"]⟩] ["x", "y"] (1/2) orc0
      ["A"] ["B"] hrun⟩

/-- C5, failing run: the table `[(idx 0, user "A"), (idx 1, user "B"),
(idx 2, user "A")]` contains a duplicate of user "A".  Deduplication keeps
the rows with index labels 1 and 2, but `stratify` returns *positional*
indices, which `.loc` then looks up as index *labels*: the test id 1
selects the row labelled 1 — user "B" — whereas on the same table with
duplicates already removed (fresh index 0, 1) the identical run of the
algorithm, with identical tie-break choices, puts user "A" in the test
group.  Partition membership therefore differs, refuting deduplication
idempotence; the code's own comment says duplicates are tolerated, so
this is a slip (`.loc` where positional selection was intended). -/
theorem C5_dedup_loc_bug :
    splitCore [⟨0, "A", ["a"]⟩, ⟨1, "B", ["b"]⟩, ⟨2, "A", ["a"]⟩]
        ["a", "b"] (1/2) orc0 = .ok (["B"], ["A"])
    ∧ splitCore [⟨0, "B", ["b"]⟩, ⟨1, "A", ["a"]⟩] ["a", "b"] (1/2) orc0
        = .ok (["A"], ["B"])
    ∧ (["B"] : List String).toFinset ≠ (["A"] : List String).toFinset := by
  refine ⟨?_, ?_, ?_⟩
  · norm_num +decide [splitCore, dropDupKeepLast, locUsers, stratifyE,
      organize, organizeGo, addLabels, addOnce, updF, sortLabelsDesc,
      mainLoop, selectLabel, pyMaxBy, processLabel, assignOne, sortAsc,
      orc0, List.insertionSort, List.orderedInsert]
  · norm_num +decide [splitCore, dropDupKeepLast, locUsers, stratifyE,
      organize, organizeGo, addLabels, addOnce, updF, sortLabelsDesc,
      mainLoop, selectLabel, pyMaxBy, processLabel, assignOne, sortAsc,
      orc0, List.insertionSort, List.orderedInsert]
  · intro hcontra
    have : ("B" : String) ∈ (["A"] : List String).toFinset := by
      rw [← hcontra]
      simp
    simp at this

/-! ### Split validator, numeric features (`get_split_metrics`,
sampling.py lines 463-510)

The per-partition feature values are lists of rationals.  `pandas`'s
sample standard deviation (`Series.std`, a float `sqrt`) and scipy's
`ks_2samp` are external library calls, taken as function parameters
(`none` / `.error` model their `NaN` / raised-exception outcomes); all the
surrounding logic — ratios, Python truthiness, thresholds, warning
strings — is embedded exactly. -/

/-- `Series.mean()`: `none` models the `NaN` of an empty series. -/
def pandasMean (l : List ℚ) : Option ℚ :=
  if l.isEmpty then none else some (l.sum / (l.length : ℚ))

/-- `mean_ratio` (lines 467-471): the ratio when both means are non-null
and the denominator is nonzero, else `None`. -/
def meanRatioOf (t c : List ℚ) : Option ℚ :=
  match pandasMean t, pandasMean c with
  | some a, some b => if b ≠ 0 then some (a / b) else none
  | _, _ => none

/-- `std_ratio` (lines 475-479), over the library-supplied `std`. -/
def stdRatioOf (t c : List ℚ) (std : List ℚ → Option ℚ) : Option ℚ :=
  match std t, std c with
  | some a, some b => if b ≠ 0 then some (a / b) else none
  | _, _ => none

/-- The mean/std warning entries (lines 472-473 and 480-482).  Python's
`if mean_ratio and abs(mean_ratio - 1) > 0.1:` is truthiness-guarded: no
warning when the ratio is `None` — or exactly `0.0`. -/
def numericWarnBase (t c : List ℚ) (std : List ℚ → Option ℚ) :
    List (String × String) :=
  (match meanRatioOf t c with
    | some x =>
      if x ≠ 0 ∧ 1/10 < |x - 1| then
        [("mean_ratio", "Mean differs by " ++ fmt1 (|x - 1| * 100) ++ "%")]
      else []
    | none => []) ++
  (match stdRatioOf t c std with
    | some x =>
      if x ≠ 0 ∧ 1/5 < |x - 1| then
        [("std_ratio",
          "Standard deviation differs by " ++ fmt1 (|x - 1| * 100) ++ "%")]
      else []
    | none => [])

/-- The numeric-feature metrics bundle (`FeatureMetrics` for one numeric
feature).  The Python dict of warnings is modelled as an association list
in insertion order. -/
structure NumMetrics where
  mean_ratio : Option ℚ
  std_ratio : Option ℚ
  ks_statistic : Option ℚ
  p_value : Option ℚ
  warnings : List (String × String)

/-- The numeric branch of `get_split_metrics` for one feature
(lines 463-510): ratios and their warnings, then the KS test inside
`try/except` — a raised exception leaves both KS fields `None` and adds no
warning. -/
def numericFeatureMetrics (t c : List ℚ) (std : List ℚ → Option ℚ)
    (ks : List ℚ → List ℚ → Except Unit (ℚ × ℚ)) : NumMetrics :=
  match ks t c with
  | .ok sp =>
    { mean_ratio := meanRatioOf t c
      std_ratio := stdRatioOf t c std
      ks_statistic := some sp.1
      p_value := some sp.2
      warnings := numericWarnBase t c std ++
        (if sp.2 < 1/20 then
          ("ks_test", "Distributions are significantly different (p="
              ++ fmt3 sp.2 ++ ")")
            :: (if 1/10 < sp.1 then
                [("ks_statistic", "Large difference in distributions: "
                    ++ fmt1 (sp.1 * 100) ++ "%")]
              else [])
          else []) }
  | .error _ =>
    { mean_ratio := meanRatioOf t c
      std_ratio := stdRatioOf t c std
      ks_statistic := none
      p_value := none
      warnings := numericWarnBase t c std }

theorem numericFeatureMetrics_mean_ratio (t c : List ℚ)
    (std : List ℚ → Option ℚ)
    (ks : List ℚ → List ℚ → Except Unit (ℚ × ℚ)) :
    (numericFeatureMetrics t c std ks).mean_ratio = meanRatioOf t c := by
  unfold numericFeatureMetrics
  cases ks t c <;> rfl

theorem numericFeatureMetrics_std_ratio (t c : List ℚ)
    (std : List ℚ → Option ℚ)
    (ks : List ℚ → List ℚ → Except Unit (ℚ × ℚ)) :
    (numericFeatureMetrics t c std ks).std_ratio = stdRatioOf t c std := by
  unfold numericFeatureMetrics
  cases ks t c <;> rfl

theorem numericWarnBase_sub (t c : List ℚ) (std : List ℚ → Option ℚ)
    (ks : List ℚ → List ℚ → Except Unit (ℚ × ℚ)) (k : String)
    (hk : k ∈ (numericWarnBase t c std).map Prod.fst) :
    k ∈ (numericFeatureMetrics t c std ks).warnings.map Prod.fst := by
  unfold numericFeatureMetrics
  cases ks t c with
  | ok sp =>
    simp only [List.map_append, List.mem_append]
    exact Or.inl hk
  | error e => exact hk

/-- C9, amended: whenever `mean_ratio` is computed (not `None`) **and is
nonzero** and `|mean_ratio - 1| > 0.1`, a `mean_ratio` warning is
attached; likewise for a nonzero `std_ratio` with `|std_ratio - 1| > 0.2`.
(Python truthiness silently drops the warning when a ratio equals `0.0`,
which the counterexample exhibits.) -/
theorem C9_ratio_warnings_amended (t c : List ℚ)
    (std : List ℚ → Option ℚ)
    (ks : List ℚ → List ℚ → Except Unit (ℚ × ℚ)) (x y : ℚ) :
    ((numericFeatureMetrics t c std ks).mean_ratio = some x → x ≠ 0 →
      1/10 < |x - 1| →
      "mean_ratio" ∈ (numericFeatureMetrics t c std ks).warnings.map
        Prod.fst)
    ∧ ((numericFeatureMetrics t c std ks).std_ratio = some y → y ≠ 0 →
      1/5 < |y - 1| →
      "std_ratio" ∈ (numericFeatureMetrics t c std ks).warnings.map
        Prod.fst) := by
  constructor
  · intro hmr hx hgt
    rw [numericFeatureMetrics_mean_ratio] at hmr
    apply numericWarnBase_sub
    unfold numericWarnBase
    rw [hmr]
    simp [hx]
    left
    linarith
  · intro hsr hy hgt
    rw [numericFeatureMetrics_std_ratio] at hsr
    apply numericWarnBase_sub
    unfold numericWarnBase
    rw [hsr]
    simp [hy]
    right
    linarith

/-- A stand-in for `Series.std` that is exact on the concrete constant
lists used by the C9 witness and counterexample (the sample standard
deviation of a constant list is 0; a single-element or empty list gives
`NaN`). -/
def stdConstZero (l : List ℚ) : Option ℚ :=
  if l.length ≤ 1 then none else some 0

/-- C9, counterexample: test values `[0, 0]` against control values
`[2, 2]` give `mean_ratio = 0.0` (computed, not `None`) with
`|0 - 1| = 1 > 0.1`, yet NO `mean_ratio` warning is attached, because
`if mean_ratio and …` treats the float `0.0` as falsy. -/
theorem C9_zero_ratio_cex :
    (numericFeatureMetrics [0, 0] [2, 2] stdConstZero
        (fun _ _ => .ok (1, 1/2))).mean_ratio = some 0
    ∧ (1 : ℚ)/10 < |(0 : ℚ) - 1|
    ∧ (numericFeatureMetrics [0, 0] [2, 2] stdConstZero
        (fun _ _ => .ok (1, 1/2))).warnings = [] := by
  refine ⟨?_, by norm_num, ?_⟩
  · rw [numericFeatureMetrics_mean_ratio]
    norm_num [meanRatioOf, pandasMean]
  · norm_num [numericFeatureMetrics, numericWarnBase, meanRatioOf,
      stdRatioOf, pandasMean, stdConstZero]

/-- Witness for C9: test `[3, 3]` vs control `[1, 1]` has
`mean_ratio = 3`, and with a library std of 6 vs 2 a `std_ratio` of 3;
both warnings are attached. -/
theorem C9_ratio_warnings_amended_witness :
    ("mean_ratio" ∈ (numericFeatureMetrics [3, 3] [1, 1]
        (fun l => some l.sum) (fun _ _ => .ok (0, 1))).warnings.map
          Prod.fst)
    ∧ ("std_ratio" ∈ (numericFeatureMetrics [3, 3] [1, 1]
        (fun l => some l.sum) (fun _ _ => .ok (0, 1))).warnings.map
          Prod.fst) :=
  ⟨(C9_ratio_warnings_amended [3, 3] [1, 1] (fun l => some l.sum)
      (fun _ _ => .ok (0, 1)) 3 3).1
    (by rw [numericFeatureMetrics_mean_ratio]
        norm_num [meanRatioOf, pandasMean])
    (by norm_num) (by norm_num),
   (C9_ratio_warnings_amended [3, 3] [1, 1] (fun l => some l.sum)
      (fun _ _ => .ok (0, 1)) 3 3).2
    (by rw [numericFeatureMetrics_std_ratio]
        norm_num [stdRatioOf])
    (by norm_num) (by norm_num)⟩

/-! ### Split validator, categorical features (`get_split_metrics`,
sampling.py lines 513-589)

Category codes are integers.  `pandas.Series.value_counts(normalize=True)`
yields the distinct values with their relative frequencies, most frequent
first (ties in order of first appearance); `.get(val, 0)` is an
association-list lookup with default 0.  `scipy.stats.chisquare` and
`scipy.stats.entropy` are library calls taken as parameters returning
`Except` (`.error` models a raised exception, e.g. `stats.entropy` on
distributions of different lengths); the `try/except` structure around
them is embedded exactly.  The rational division `testTotal/controlTotal`
returns 0 for an empty control partition where numpy would produce `inf`;
that value only feeds the `chisq` parameter. -/

/-- Python `max(xs, key=f)` with a rational-valued key. -/
def pyMaxByQ {α : Type} (f : α → ℚ) : List α → Option α
  | [] => none
  | x :: xs => some (xs.foldl (fun b y => if f b < f y then y else b) x)

/-- `series.value_counts(normalize=True)` as an association list
value ↦ relative frequency, sorted by count descending (stable). -/
def valueCounts (l : List ℤ) : List (ℤ × ℚ) :=
  let counted := l.dedup.map (fun k => (k, l.count k))
  let sorted := List.insertionSort (fun a b => b.2 ≤ a.2) counted
  sorted.map (fun kv => (kv.1, (kv.2 : ℚ) / (l.length : ℚ)))

/-- `dist.get(val, 0)`: association lookup with default 0. -/
def distGet : List (ℤ × ℚ) → ℤ → ℚ
  | [], _ => 0
  | kv :: rest, v => if kv.1 = v then kv.2 else distGet rest v

/-- `sorted(set(test_dist.index) | set(control_dist.index))`. -/
def allValuesOf (t c : List ℤ) : List ℤ :=
  (((valueCounts t).map Prod.fst)
    ++ ((valueCounts c).map Prod.fst)).toFinset.sort (· ≤ ·)

/-- `test_aligned` (lines 549-551): the test distribution aligned over the
union of observed categories, 0 for categories absent from the test
partition. -/
def testAlignedOf (t c : List ℤ) : List ℚ :=
  (allValuesOf t c).map (distGet (valueCounts t))

/-- `control_aligned * (test_total / control_total)` (lines 552-557). -/
def controlScaledOf (t c : List ℤ) : List ℚ :=
  ((allValuesOf t c).map (distGet (valueCounts c))).map
    (fun z => z * (((testAlignedOf t c).sum)
      / (((allValuesOf t c).map (distGet (valueCounts c))).sum)))

/-- `test_prop = test_dist / test_dist.sum()` (lines 575-576): the
value-counts frequencies renormalised, in value-counts order — these are
the positional vectors handed to `stats.entropy`. -/
def propOf (l : List ℤ) : List ℚ :=
  (valueCounts l).map (fun kv => kv.2 / ((valueCounts l).map Prod.snd).sum)

/-- `max(all_values, key=lambda x: abs(test_dist.get(x,0) - control_dist.get(x,0)))`. -/
def maxDiffValOf (t c : List ℤ) : ℤ :=
  (pyMaxByQ (fun v => |distGet (valueCounts t) v - distGet (valueCounts c) v|)
    (allValuesOf t c)).getD 0

/-- The categorical-feature metrics bundle (`FeatureMetrics` for one
categorical feature). -/
structure CatMetrics where
  proportion_diffs : List (String × (ℚ × ℚ × ℚ))
  max_diff : ℚ
  p_value : Option ℚ
  js_divergence : Option ℚ
  warnings : List (String × String)

/-- The categorical branch of `get_split_metrics` for one feature
(lines 513-589).  `.error` is the *uncaught* `ValueError` that
`max(... for val in all_values)` raises when both partitions are empty;
chi-square and entropy failures are caught inside (metric `None`, no
warning).  The parametric `chisq`/`entropy` calls are written once per
use site; as pure functions this matches the single Python call. -/
def catFeatureMetrics (t c : List ℤ)
    (chisq : List ℚ → List ℚ → Except Unit (ℚ × ℚ))
    (entropy : List ℚ → List ℚ → Except Unit ℚ) :
    Except Unit CatMetrics :=
  match pyMaxList ((allValuesOf t c).map (fun v =>
      |distGet (valueCounts t) v - distGet (valueCounts c) v|)) with
  | none => .error ()
  | some maxDiff =>
    .ok
    { proportion_diffs := (allValuesOf t c).filterMap (fun v =>
        if distGet (valueCounts t) v - distGet (valueCounts c) v ≠ 0 then
          some (toString v,
            (distGet (valueCounts t) v * 100,
              distGet (valueCounts c) v * 100,
              (distGet (valueCounts t) v - distGet (valueCounts c) v) * 100))
        else none)
      max_diff := maxDiff
      p_value := match chisq (testAlignedOf t c) (controlScaledOf t c) with
        | .ok cp => some cp.2
        | .error _ => none
      js_divergence := match entropy (propOf t) (propOf c) with
        | .ok v => some v
        | .error _ => none
      warnings :=
        (if 1/20 < maxDiff then
          [("distribution", "Large distribution difference for value "
            ++ toString (maxDiffValOf t c) ++ ": test="
            ++ fmt1 (distGet (valueCounts t) (maxDiffValOf t c) * 100)
            ++ "%, control="
            ++ fmt1 (distGet (valueCounts c) (maxDiffValOf t c) * 100)
            ++ "%")]
          else []) ++
        (match chisq (testAlignedOf t c) (controlScaledOf t c) with
          | .ok cp =>
            if cp.2 < 1/20 then
              [("p_value", "Significantly different distributions (p="
                ++ fmt3 cp.2 ++ ")")]
            else []
          | .error _ => []) ++
        (match entropy (propOf t) (propOf c) with
          | .ok v =>
            if 1/10 < v then
              [("js_divergence", "High JS divergence: " ++ fmt3 v)]
            else []
          | .error _ => []) }

def exJs : Except Unit CatMetrics → Option ℚ
  | .ok m => m.js_divergence
  | .error _ => none

def exPval : Except Unit CatMetrics → Option ℚ
  | .ok m => m.p_value
  | .error _ => none

def exWarnKeys : Except Unit CatMetrics → List String
  | .ok m => m.warnings.map Prod.fst
  | .error _ => []

/-- The categorical-features loop of `get_split_metrics`: one metrics
entry per feature, computed independently. -/
def getCatMetricsAll (feats : List (String × List ℤ × List ℤ))
    (chisq : List ℚ → List ℚ → Except Unit (ℚ × ℚ))
    (entropy : List ℚ → List ℚ → Except Unit ℚ) :
    List (String × Except Unit CatMetrics) :=
  feats.map (fun f => (f.1, catFeatureMetrics f.2.1 f.2.2 chisq entropy))

theorem valueCounts_ne_nil (l : List ℤ) (hne : l ≠ []) :
    valueCounts l ≠ [] := by
  unfold valueCounts
  intro hnil2
  rw [List.map_eq_nil_iff] at hnil2
  have hperm := (List.perm_insertionSort (fun a b : ℤ × ℕ => b.2 ≤ a.2)
    (l.dedup.map (fun k => (k, l.count k)))).length_eq
  rw [hnil2] at hperm
  simp only [List.length_nil, List.length_map] at hperm
  have hd : l.dedup = [] := List.length_eq_zero.mp hperm.symm
  exact hne ((List.dedup_eq_nil l).mp hd)

theorem allValuesOf_ne_nil (t c : List ℤ) (hne : t ≠ [] ∨ c ≠ []) :
    allValuesOf t c ≠ [] := by
  intro hnil
  cases hne with
  | inl ht =>
    obtain ⟨kv, rest, hv⟩ : ∃ kv rest, valueCounts t = kv :: rest := by
      rcases h : valueCounts t with _ | ⟨kv, rest⟩
      · exact absurd h (valueCounts_ne_nil t ht)
      · exact ⟨kv, rest, rfl⟩
    have hmem : kv.1 ∈ allValuesOf t c := by
      unfold allValuesOf
      rw [Finset.mem_sort, List.mem_toFinset, List.mem_append]
      left
      rw [hv]
      simp
    rw [hnil] at hmem
    exact List.not_mem_nil _ hmem
  | inr hc =>
    obtain ⟨kv, rest, hv⟩ : ∃ kv rest, valueCounts c = kv :: rest := by
      rcases h : valueCounts c with _ | ⟨kv, rest⟩
      · exact absurd h (valueCounts_ne_nil c hc)
      · exact ⟨kv, rest, rfl⟩
    have hmem : kv.1 ∈ allValuesOf t c := by
      unfold allValuesOf
      rw [Finset.mem_sort, List.mem_toFinset, List.mem_append]
      right
      rw [hv]
      simp
    rw [hnil] at hmem
    exact List.not_mem_nil _ hmem

/-- C6, amended: when computing chi-square or the divergence metric for a
categorical feature fails, the failure is caught, the metric is `None`,
**no warning for that metric is attached**, processing continues (an
entry is produced for every feature), and no exception propagates
(provided the feature's partitions are not both empty — were both empty,
the separate `max()` over an empty sequence, outside any `try`, would
raise). -/
theorem C6_metric_failure_amended (t c : List ℤ)
    (chisq : List ℚ → List ℚ → Except Unit (ℚ × ℚ))
    (entropy : List ℚ → List ℚ → Except Unit ℚ)
    (feats : List (String × List ℤ × List ℤ)) (hne : t ≠ [] ∨ c ≠ []) :
    (catFeatureMetrics t c chisq entropy).isOk = true
    ∧ (entropy (propOf t) (propOf c) = .error () →
        exJs (catFeatureMetrics t c chisq entropy) = none
        ∧ "js_divergence" ∉ exWarnKeys (catFeatureMetrics t c chisq entropy))
    ∧ (chisq (testAlignedOf t c) (controlScaledOf t c) = .error () →
        exPval (catFeatureMetrics t c chisq entropy) = none
        ∧ "p_value" ∉ exWarnKeys (catFeatureMetrics t c chisq entropy))
    ∧ (getCatMetricsAll feats chisq entropy).length = feats.length := by
  have hanv := allValuesOf_ne_nil t c hne
  have hmax : ∃ md, pyMaxList ((allValuesOf t c).map (fun v =>
      |distGet (valueCounts t) v - distGet (valueCounts c) v|)) = some md := by
    rcases hl : allValuesOf t c with _ | ⟨v, vs⟩
    · exact absurd hl hanv
    · exact ⟨_, rfl⟩
  obtain ⟨md, hmd⟩ := hmax
  refine ⟨?_, ?_, ?_, ?_⟩
  · unfold catFeatureMetrics
    rw [hmd]
    rfl
  · intro hent
    unfold catFeatureMetrics
    rw [hmd]
    constructor
    · simp only [exJs, hent]
    · simp only [exWarnKeys, hent]
      cases hcs : chisq (testAlignedOf t c) (controlScaledOf t c) with
      | ok cp =>
        by_cases hmd2 : (1 : ℚ)/20 < md <;> by_cases hp : cp.2 < 1/20 <;>
          simp [hmd2, hp]
      | error e =>
        by_cases hmd2 : (1 : ℚ)/20 < md <;> simp [hmd2]
  · intro hcs
    unfold catFeatureMetrics
    rw [hmd]
    constructor
    · simp only [exPval, hcs]
    · simp only [exWarnKeys, hcs]
      cases hent : entropy (propOf t) (propOf c) with
      | ok v =>
        by_cases hmd2 : (1 : ℚ)/20 < md <;> by_cases hp : (1 : ℚ)/10 < v <;>
          simp [hmd2, hp]
      | error e =>
        by_cases hmd2 : (1 : ℚ)/20 < md <;> simp [hmd2]
  · unfold getCatMetricsAll
    exact List.length_map _ _

/-- C6, counterexample: test codes `[0, 0]` against control `[0, 1]` with
a failing divergence computation — the metric is `None` and processing
continues, but the only warning attached is the `distribution` one: no
`js_divergence` warning describes the failure, contrary to the claim. -/
theorem C6_warning_missing_cex :
    exJs (catFeatureMetrics [0, 0] [0, 1] (fun _ _ => .ok (0, 1/2))
        (fun _ _ => .error ())) = none
    ∧ exWarnKeys (catFeatureMetrics [0, 0] [0, 1]
        (fun _ _ => .ok (0, 1/2)) (fun _ _ => .error ()))
      = ["distribution"]
    ∧ "js_divergence" ∉ exWarnKeys (catFeatureMetrics [0, 0] [0, 1]
        (fun _ _ => .ok (0, 1/2)) (fun _ _ => .error ())) := by
  have hav : allValuesOf [0, 0] [0, 1] = [0, 1] := by
    have hts : (((valueCounts [0, 0]).map Prod.fst)
        ++ ((valueCounts [0, 1]).map Prod.fst)).toFinset
        = ({0, 1} : Finset ℤ) := by
      norm_num +decide [valueCounts, List.dedup, List.insertionSort,
        List.orderedInsert]
    have hsort : Finset.sort (· ≤ ·) (insert (0 : ℤ) ({1} : Finset ℤ))
        = 0 :: Finset.sort (· ≤ ·) ({1} : Finset ℤ) :=
      Finset.sort_insert (· ≤ ·) (by norm_num) (by norm_num)
    unfold allValuesOf
    rw [hts, hsort, Finset.sort_singleton]
  have habs : |(1 : ℚ)/2| = 1/2 := by
    rw [abs_of_pos]
    norm_num
  have h : exWarnKeys (catFeatureMetrics [0, 0] [0, 1]
      (fun _ _ => .ok (0, 1/2)) (fun _ _ => .error ()))
      = ["distribution"] := by
    norm_num +decide [catFeatureMetrics, exWarnKeys, hav, valueCounts,
      distGet, pyMaxList, List.dedup, List.insertionSort,
      List.orderedInsert, habs]
  refine ⟨?_, h, ?_⟩
  · norm_num +decide [catFeatureMetrics, exJs, hav, valueCounts, distGet,
      pyMaxList, List.dedup, List.insertionSort, List.orderedInsert]
  · rw [h]
    simp

/-- Witness for C6 with both library calls failing on `[0, 0]` vs
`[0, 1]`: the metrics entry is still produced, both metrics are `None`,
neither failed metric gets a warning, and the loop output keeps one entry
per feature. -/
theorem C6_metric_failure_amended_witness :
    (catFeatureMetrics [0, 0] [0, 1] (fun _ _ => .error ())
        (fun _ _ => .error ())).isOk = true
    ∧ ((fun (_ : List ℚ) (_ : List ℚ) => (Except.error () : Except Unit ℚ))
          (propOf [0, 0]) (propOf [0, 1]) = .error () →
        exJs (catFeatureMetrics [0, 0] [0, 1] (fun _ _ => .error ())
            (fun _ _ => .error ())) = none
        ∧ "js_divergence" ∉ exWarnKeys (catFeatureMetrics [0, 0] [0, 1]
            (fun _ _ => .error ()) (fun _ _ => .error ())))
    ∧ ((fun (_ : List ℚ) (_ : List ℚ) =>
            (Except.error () : Except Unit (ℚ × ℚ)))
          (testAlignedOf [0, 0] [0, 1]) (controlScaledOf [0, 0] [0, 1])
          = .error () →
        exPval (catFeatureMetrics [0, 0] [0, 1] (fun _ _ => .error ())
            (fun _ _ => .error ())) = none
        ∧ "p_value" ∉ exWarnKeys (catFeatureMetrics [0, 0] [0, 1]
            (fun _ _ => .error ()) (fun _ _ => .error ())))
    ∧ (getCatMetricsAll [("brand", [0, 0], [0, 1])] (fun _ _ => .error ())
        (fun _ _ => .error ())).length
      = [("brand", ([0, 0] : List ℤ), ([0, 1] : List ℤ))].length :=
  C6_metric_failure_amended [0, 0] [0, 1] (fun _ _ => .error ())
    (fun _ _ => .error ()) [("brand", [0, 0], [0, 1])] (Or.inl (by simp))

/-! ### The value `scipy.stats.entropy` computes (C7)

`js_div = stats.entropy(test_prop, control_prop)` (sampling.py line 577).
For same-length inputs `scipy.stats.entropy(pk, qk)` normalises each
vector by its sum and returns the Kullback-Leibler sum
`Σ pᵢ·ln(pᵢ/qᵢ)` — pairing the two vectors positionally.  Idealised over
`ℝ` with the exact natural logarithm. -/

noncomputable def scipyEntropy (p q : List ℝ) : ℝ :=
  (((p.map (fun z => z / p.sum)).zip (q.map (fun z => z / q.sum))).map
    (fun xy => xy.1 * Real.log (xy.1 / xy.2))).sum

/-- The `js_divergence` value `get_split_metrics` reports for a
categorical feature with test partition values `t` and control partition
values `c` (lines 574-577): `stats.entropy` applied to the renormalised
value-counts frequency vectors, each in its own value-counts order. -/
noncomputable def jsDivAsComputed (t c : List ℤ) : ℝ :=
  scipyEntropy ((propOf t).map (fun z => (z : ℝ)))
    ((propOf c).map (fun z => (z : ℝ)))

/-- C7: the reported `js_divergence` is not symmetric under swapping the
test and control partitions — it is the (asymmetric) Kullback-Leibler
divergence, not the Jensen-Shannon divergence.  Concretely: test codes
`[0, 1]` (distribution ½, ½) against control codes `[0, 1, 1, 1]`
(distribution ¾, ¼ after the descending value-counts ordering) give
`½·ln(⅔) + ½·ln 2`, while the swapped partitions give
`¾·ln(³⁄₂) + ¼·ln ½`; equality would force `2⁸ = 3⁵`. -/
theorem C7_js_asymmetry :
    jsDivAsComputed [0, 1] [0, 1, 1, 1]
      ≠ jsDivAsComputed [0, 1, 1, 1] [0, 1] := by
  have hp1 : propOf [0, 1] = [1/2, 1/2] := by
    norm_num +decide [propOf, valueCounts, List.dedup, List.insertionSort,
      List.orderedInsert]
  have hp2 : propOf [0, 1, 1, 1] = [3/4, 1/4] := by
    norm_num +decide [propOf, valueCounts, List.dedup, List.insertionSort,
      List.orderedInsert]
  have h1 : jsDivAsComputed [0, 1] [0, 1, 1, 1]
      = (1/2 : ℝ) * Real.log ((1/2) / (3/4))
        + (1/2) * Real.log ((1/2) / (1/4)) := by
    rw [jsDivAsComputed, hp1, hp2]
    norm_num [scipyEntropy, List.zip]
  have h2 : jsDivAsComputed [0, 1, 1, 1] [0, 1]
      = (3/4 : ℝ) * Real.log ((3/4) / (1/2))
        + (1/4) * Real.log ((1/4) / (1/2)) := by
    rw [jsDivAsComputed, hp1, hp2]
    norm_num [scipyEntropy, List.zip]
  rw [h1, h2]
  intro heq
  have e1 : ((1:ℝ)/2) / (3/4) = 2/3 := by norm_num
  have e2 : ((1:ℝ)/2) / (1/4) = 2 := by norm_num
  have e3 : ((3:ℝ)/4) / (1/2) = 3/2 := by norm_num
  have e4 : ((1:ℝ)/4) / (1/2) = 1/2 := by norm_num
  rw [e1, e2, e3, e4] at heq
  have l1 : Real.log ((2:ℝ)/3) = Real.log 2 - Real.log 3 :=
    Real.log_div (by norm_num) (by norm_num)
  have l2 : Real.log ((3:ℝ)/2) = Real.log 3 - Real.log 2 :=
    Real.log_div (by norm_num) (by norm_num)
  have l3 : Real.log ((1:ℝ)/2) = Real.log 1 - Real.log 2 :=
    Real.log_div (by norm_num) (by norm_num)
  rw [l1, l2, l3, Real.log_one] at heq
  have hlin : 8 * Real.log 2 = 5 * Real.log 3 := by linarith
  have h256 : Real.log ((2:ℝ) ^ (8:ℕ)) = 8 * Real.log 2 := by
    rw [Real.log_pow]
    norm_num
  have h243 : Real.log ((3:ℝ) ^ (5:ℕ)) = 5 * Real.log 3 := by
    rw [Real.log_pow]
    norm_num
  have hlt : Real.log ((3:ℝ) ^ (5:ℕ)) < Real.log ((2:ℝ) ^ (8:ℕ)) := by
    apply Real.log_lt_log
    · norm_num
    · norm_num
  rw [h243, h256] at hlt
  linarith

/-! ### Distribution summarizer, numeric features
(`prepare_distribution_data`, sampling.py lines 615-647)

A row carries the user id, the binned feature value (`{col}_bins`, an
integer bucket index) and the original raw value of the column (used only
to recompute the bin edges for the labels). -/

structure DistRow where
  user : String
  binVal : ℤ
  orig : ℚ

structure DistributionData where
  feature_name : String
  is_numeric : Bool
  categories : List String
  test_distribution : List ℚ
  control_distribution : List ℚ

/-- One partition's binned values:
`df[df['user'].isin(users_x['user'])][feat]`. -/
def partVals (rows : List DistRow) (users : List String) : List ℤ :=
  (rows.filter (fun r2 => users.contains r2.user)).map (fun r2 => r2.binVal)

/-- `all_bins = sorted(set(test_dist.index) | set(control_dist.index))`:
the ascending list of bin indices observed in either partition. -/
def unionBins (rows : List DistRow) (tu cu : List String) : List ℤ :=
  ((partVals rows tu) ++ (partVals rows cu)).toFinset.sort (· ≤ ·)

/-- The bin label of bin index `i` (lines 632-639): index 1 — not the
actually occurring first index 0 — is labelled `0-{edge}`; an index equal
to `len(bins)` (which `searchsorted - 1` never produces) would be
labelled `≥{edge}`; every other index `i` gets `{bins[i-1]}-{bins[i]}`,
where Python's negative indexing makes `bins[-1]` (for `i = 0`) the last
edge. -/
def binLabel (bins : List ℚ) (i : ℤ) : String :=
  if i = 1 then "0-" ++ fmt0 (bins.getD 1 0)
  else if i = (bins.length : ℤ) then
    "≥" ++ fmt0 (bins.getD (bins.length - 1) 0)
  else fmt0 (pyGet bins (i - 1)) ++ "-" ++ fmt0 (pyGet bins i)

/-- The per-partition normalised frequencies aligned over `bins`
(lines 616-626): the zero-initialised aligned series assigned from
`value_counts(normalize=True)` equals, entrywise, `count(b) / N` — a bin
absent from the partition has count 0, and an empty partition (`N = 0`)
yields the all-zero series, matching `ℚ`'s `x / 0 = 0`. -/
def alignedFreq (vals : List ℤ) (bins : List ℤ) : List ℚ :=
  bins.map (fun b => (vals.count b : ℚ) / (vals.length : ℚ))

/-- The numeric-feature loop body of `prepare_distribution_data`
(lines 615-647) for one feature. -/
def prepareNumericDist (name : String) (rows : List DistRow)
    (tu cu : List String) : DistributionData :=
  { feature_name := name
    is_numeric := true
    categories := (unionBins rows tu cu).map
      (binLabel (binsify (rows.map (fun r2 => r2.orig)) []))
    test_distribution :=
      alignedFreq (partVals rows tu) (unionBins rows tu cu)
    control_distribution :=
      alignedFreq (partVals rows cu) (unionBins rows tu cu) }

/-- Summing the aligned normalised frequencies of a non-empty partition
over any bin list covering all its observed bins gives 1. -/
theorem alignedFreq_sum (vals : List ℤ) (s : Finset ℤ)
    (hsub : vals.toFinset ⊆ s) (hne : vals ≠ []) :
    (alignedFreq vals (s.sort (· ≤ ·))).sum = 1 := by
  unfold alignedFreq
  have hperm : List.Perm (s.sort (· ≤ ·)) s.toList :=
    Finset.sort_perm_toList _ _
  have hs : ((s.sort (· ≤ ·)).map
      (fun b => (vals.count b : ℚ) / (vals.length : ℚ))).sum
      = ∑ b in s, (vals.count b : ℚ) / (vals.length : ℚ) := by
    rw [List.Perm.sum_eq (hperm.map _)]
    exact Finset.sum_to_list _ _
  rw [hs, ← Finset.sum_div]
  have hcount : (∑ b in s, (vals.count b : ℚ)) = (vals.length : ℚ) := by
    rw [← Finset.sum_subset hsub (fun b _ hb => ?_)]
    · rw [show (∑ b in vals.toFinset, (vals.count b : ℚ))
          = ((∑ b in vals.toFinset, vals.count b : ℕ) : ℚ) by push_cast; rfl]
      congr 1
      simp
    · rw [List.mem_toFinset] at hb
      rw [List.count_eq_zero.mpr hb]
      norm_num
  rw [hcount]
  have hlen : (vals.length : ℚ) ≠ 0 := by
    have : vals.length ≠ 0 := fun hz => hne (List.length_eq_zero.mp hz)
    exact_mod_cast this
  exact div_self hlen

/-- C8, amended: for a numeric feature, `prepare_distribution_data`
reports the per-partition *value-count* frequencies of the binned feature,
aligned over the sorted union of the bin indices observed in either
partition (frequency 0 where a partition misses a bin) — not a fixed
30-bin histogram; each partition's array has one entry per observed bin
and sums to 1 when the partition is non-empty, and the labels follow the
code's rule (`binLabel`): bin index 1 is labelled `0-{edge}`, index
`len(bins)` would be `≥{edge}`, other indices `{bins[i-1]}-{bins[i]}`
with Python negative indexing. -/
theorem C8_distribution_amended (name : String) (rows : List DistRow)
    (tu cu : List String) (ht : partVals rows tu ≠ [])
    (hc : partVals rows cu ≠ []) :
    (prepareNumericDist name rows tu cu).categories
      = (unionBins rows tu cu).map
          (binLabel (binsify (rows.map (fun r2 => r2.orig)) []))
    ∧ (prepareNumericDist name rows tu cu).test_distribution.length
        = (unionBins rows tu cu).length
    ∧ (prepareNumericDist name rows tu cu).control_distribution.length
        = (unionBins rows tu cu).length
    ∧ (prepareNumericDist name rows tu cu).test_distribution.sum = 1
    ∧ (prepareNumericDist name rows tu cu).control_distribution.sum
        = 1 := by
  refine ⟨rfl, ?_, ?_, ?_, ?_⟩
  · exact List.length_map _ _
  · exact List.length_map _ _
  · apply alignedFreq_sum _ _ _ ht
    intro b hb
    rw [List.mem_toFinset] at hb
    rw [List.mem_toFinset, List.mem_append]
    exact Or.inl hb
  · apply alignedFreq_sum _ _ _ hc
    intro b hb
    rw [List.mem_toFinset] at hb
    rw [List.mem_toFinset, List.mem_append]
    exact Or.inr hb

def c8Rows : List DistRow :=
  [⟨"u1", 0, 1⟩, ⟨"u2", 0, 2⟩, ⟨"u3", 1, 5⟩, ⟨"u4", 1, 6⟩]

/-- C8, counterexample: four users in two observed bins, split two and
two — the reported arrays have one entry per *observed bin index* (here
2), not a fixed 30-bin histogram. -/
theorem C8_thirty_bins_cex :
    (prepareNumericDist "n_sessions_bins" c8Rows ["u1", "u3"]
        ["u2", "u4"]).test_distribution.length = 2
    ∧ ¬ ((prepareNumericDist "n_sessions_bins" c8Rows ["u1", "u3"]
        ["u2", "u4"]).categories.length = 30) := by
  have hub : unionBins c8Rows ["u1", "u3"] ["u2", "u4"] = [0, 1] := by
    have hts : ((partVals c8Rows ["u1", "u3"])
        ++ (partVals c8Rows ["u2", "u4"])).toFinset
        = ({0, 1} : Finset ℤ) := by
      norm_num +decide [partVals, c8Rows]
    have hsort : Finset.sort (· ≤ ·) (insert (0 : ℤ) ({1} : Finset ℤ))
        = 0 :: Finset.sort (· ≤ ·) ({1} : Finset ℤ) :=
      Finset.sort_insert (· ≤ ·) (by norm_num) (by norm_num)
    unfold unionBins
    rw [hts, hsort, Finset.sort_singleton]
  constructor
  · show (alignedFreq (partVals c8Rows ["u1", "u3"])
        (unionBins c8Rows ["u1", "u3"] ["u2", "u4"])).length = 2
    rw [hub]
    rfl
  · show ¬ (((unionBins c8Rows ["u1", "u3"] ["u2", "u4"]).map
        (binLabel (binsify (c8Rows.map (fun r2 => r2.orig)) []))).length
        = 30)
    rw [hub]
    simp

/-- Witness for C8 on the same four users: both partitions non-empty. -/
theorem C8_distribution_amended_witness :
    (prepareNumericDist "n_sessions_bins" c8Rows ["u1", "u3"]
        ["u2", "u4"]).categories
      = (unionBins c8Rows ["u1", "u3"] ["u2", "u4"]).map
          (binLabel (binsify (c8Rows.map (fun r2 => r2.orig)) []))
    ∧ (prepareNumericDist "n_sessions_bins" c8Rows ["u1", "u3"]
        ["u2", "u4"]).test_distribution.length
        = (unionBins c8Rows ["u1", "u3"] ["u2", "u4"]).length
    ∧ (prepareNumericDist "n_sessions_bins" c8Rows ["u1", "u3"]
        ["u2", "u4"]).control_distribution.length
        = (unionBins c8Rows ["u1", "u3"] ["u2", "u4"]).length
    ∧ (prepareNumericDist "n_sessions_bins" c8Rows ["u1", "u3"]
        ["u2", "u4"]).test_distribution.sum = 1
    ∧ (prepareNumericDist "n_sessions_bins" c8Rows ["u1", "u3"]
        ["u2", "u4"]).control_distribution.sum = 1 :=
  C8_distribution_amended "n_sessions_bins" c8Rows ["u1", "u3"]
    ["u2", "u4"] (by norm_num +decide [partVals, c8Rows])
    (by norm_num +decide [partVals, c8Rows])

end Sampling
